import Mathlib

/-!
Shallow embedding of the `agbd` branch-deletion tool.

Sources embedded here:
* `src/unnamed/part_000` — `GitOperations` (branch parsing, listing order,
  `deleteLocalBranch`, `deleteRemoteBranch`);
* `src/src/app.tsx` — the session state machine (`executePlan`, mode
  selection, `filterByAge`, `filterByPattern`, current-branch exclusion,
  confirmation keyboard handling, exit effect).

JavaScript strings are modelled as `List Char`; JavaScript numbers that hold
timestamps or day counts are modelled as `Int` (milliseconds since the epoch,
as returned by `Date.prototype.getTime`).  External collaborators (the `git`
binary, the regex engine of `RegExp`, `Date` parsing, `matchPattern` from the
`ag-toolkit` package) are modelled as explicit function parameters; the
mutating `git` invocations are reified as `GitCall` values so that theorems
can talk about which external mutations a code path performs.
-/

/-- JavaScript strings, modelled as lists of characters. -/
abbrev Str := List Char

/-- Embed a Lean string literal into the model's string type. -/
def str (s : String) : Str := s.toList

/-- The NUL delimiter used by the `%00` for-each-ref format. -/
def nulChar : Char := Char.ofNat 0

/-- JavaScript `String.prototype.includes`: `containsSeq s pat` is true iff
`pat` occurs contiguously inside `s` (and is always true for the empty
pattern, as in JavaScript). -/
def containsSeq (s pat : Str) : Bool :=
  if pat.isPrefixOf s then true
  else
    match s with
    | [] => false
    | _ :: t => containsSeq t pat

/-- JavaScript `String.prototype.split` at a single character: splits `s` at
every occurrence of `c`; the empty string yields `[""]`. -/
def splitOnChar (c : Char) (s : Str) : List Str :=
  match s with
  | [] => [[]]
  | x :: xs =>
    let rest := splitOnChar c xs
    if x = c then [] :: rest
    else
      match rest with
      | [] => [[x]]
      | r :: rs => (x :: r) :: rs

/-- JavaScript `Array.prototype.join("/")`. -/
def joinSlash : List Str → Str
  | [] => []
  | [x] => x
  | x :: xs => x ++ '/' :: joinSlash xs

/-- JavaScript `String.prototype.replace` with an anchored prefix regex such
as `/^refs\/heads\//`: drops the prefix when present, otherwise returns the
string unchanged. -/
def dropLeading (pre s : Str) : Str :=
  if pre.isPrefixOf s then s.drop pre.length else s

/-- Whitespace characters removed by JavaScript `String.prototype.trim`. -/
def isJsWhitespace (c : Char) : Bool :=
  c = ' ' || c = '\t' || c = '\n' || c = '\r'

/-- JavaScript `String.prototype.trim`. -/
def trimStr (s : Str) : Str :=
  ((s.dropWhile isJsWhitespace).reverse.dropWhile isJsWhitespace).reverse

/-- `BranchType` from `src/unnamed/part_000`: `"local" | "remote"`. -/
inductive BranchType where
  | localBr
  | remoteBr
deriving DecidableEq

/-- `BranchInfo` from `src/unnamed/part_000`.  `remote` is `none` when the
`remote?` field is absent; `lastCommitDate` is the `getTime()` value of the
parsed `Date`, `none` for `null`. -/
structure Branch where
  ref : Str
  name : Str
  type : BranchType
  remote : Option Str := none
  lastCommitDate : Option Int := none
  lastCommitSha : Option Str := none
  lastCommitSubject : Option Str := none
  isMerged : Bool := false
  ahead : Int := 0
  behind : Int := 0
deriving DecidableEq

/-- A mutating invocation of the external `git` binary:
`git branch -d (or -D) <branch>` or `git push <remote> --delete <name>`. -/
inductive GitCall where
  | branchDelete (force : Bool) (branch : Str)
  | pushDelete (remote : Str) (name : Str)
deriving DecidableEq

/-- Shell metacharacters (the backtick, quotes and braces are written via
`Char.ofNat`: 34 is the double quote, 39 the single quote, 96 the backtick,
123 and 125 the braces). -/
def shellMetachars : List Char :=
  [' ', '!', '#', '$', '&', '(', ')', '*', ';', '<', '>', '?', '[', '\\',
   ']', '^', '~', '|', '\n', '\t',
   Char.ofNat 34, Char.ofNat 39, Char.ofNat 96, Char.ofNat 123, Char.ofNat 125]

/-- Modelled from the spec: the function `isValidBranchName` is imported from
`./lib/isValidBranchName.js`, a module of this repository that is not among
the provided sources.  Per the spec it is "a branch-name-safety predicate
(rejects names containing shell-metacharacters, path-traversal segments, or
leading dashes that could be mis-parsed as flags)". -/
def isValidBranchName (s : Str) : Bool :=
  match s with
  | [] => false
  | c :: _ =>
    !(c = '-') && s.all (fun ch => !(shellMetachars.contains ch)) &&
      !(containsSeq s (str ".."))

/-- `GitOperations.deleteLocalBranch` (`src/unnamed/part_000` lines 203-212):
validates the name, then runs `git branch -d (or -D) <branch>`.  The external call
is returned as a `GitCall`; a validation failure returns the thrown error
message instead, so no external call is reachable. -/
def deleteLocalBranch (branch : Str) (force : Bool) : Except Str GitCall :=
  if !(isValidBranchName branch) then
    Except.error (str "Invalid branch name: " ++ branch)
  else
    Except.ok (GitCall.branchDelete force branch)

/-- `GitOperations.deleteRemoteBranch` (`src/unnamed/part_000` lines 214-223):
validates the name component, then runs `git push <remote> --delete <name>`. -/
def deleteRemoteBranch (remote name : Str) : Except Str GitCall :=
  if !(isValidBranchName name) then
    Except.error (str "Invalid branch name: " ++ name)
  else
    Except.ok (GitCall.pushDelete remote name)

/-- `parseBranchLine` (`src/unnamed/part_000` lines 306-356).  `parseDate`
models `new Date(dateStr).getTime()` together with its `Number.isNaN` check
(`none` for an unparsable date). -/
def parseBranchLine (parseDate : Str → Option Int) (line : Str)
    (btype : BranchType) : Option Branch :=
  let parts := splitOnChar nulChar line
  let ref := parts.headD []
  let shortRef := dropLeading (str "refs/remotes/") (dropLeading (str "refs/heads/") ref)
  if shortRef.isEmpty || (str "/HEAD").isSuffixOf shortRef then none
  else
    let dateStr := parts.getD 1 []
    let lastCommitDate := if dateStr.isEmpty then none else parseDate dateStr
    let sha := parts.getD 2 []
    let subject := parts.getD 3 []
    let trimmedSubject := trimStr subject
    let lastCommitSubject := if trimmedSubject.isEmpty then none else some trimmedSubject
    let shaTrimmed := trimStr sha
    let lastCommitSha := if shaTrimmed.isEmpty then none else some shaTrimmed
    match btype with
    | BranchType.remoteBr =>
      match splitOnChar '/' shortRef with
      | [] => none
      | remote :: nameParts =>
        let name := joinSlash nameParts
        if remote.isEmpty || name.isEmpty || name = str "HEAD" then none
        else
          some { ref := shortRef, name := name, type := BranchType.remoteBr,
                 remote := some remote, lastCommitDate := lastCommitDate,
                 lastCommitSha := lastCommitSha,
                 lastCommitSubject := lastCommitSubject }
    | BranchType.localBr =>
      some { ref := shortRef, name := shortRef, type := BranchType.localBr,
             lastCommitDate := lastCommitDate, lastCommitSha := lastCommitSha,
             lastCommitSubject := lastCommitSubject }

/-- The time used by the sort comparator in `getBranchInfos`
(`src/unnamed/part_000` lines 193-200): `lastCommitDate?.getTime() ?? 0`. -/
def branchTime (b : Branch) : Int := b.lastCommitDate.getD 0

/-- The comparator of `getBranchInfos` read as a total preorder:
`branchLe a b` iff the JavaScript comparator returns a non-positive number on
`(a, b)` — locals sort before remotes, and within one kind later commit dates
come first (a missing date counts as time `0`). -/
def branchLe (a b : Branch) : Bool :=
  if a.type = b.type then decide (branchTime b ≤ branchTime a)
  else decide (a.type = BranchType.localBr)

/-- `branchLe` as a relation, for use with `List.insertionSort`. -/
def branchRel (a b : Branch) : Prop := branchLe a b = true

instance : DecidableRel branchRel := fun a b =>
  inferInstanceAs (Decidable (branchLe a b = true))

/-- The final `.sort(...)` of `getBranchInfos`: `Array.prototype.sort` is a
stable sort consistent with its comparator, modelled by insertion sort on the
comparator's preorder. -/
def sortBranches (l : List Branch) : List Branch :=
  List.insertionSort branchRel l

/-- Truthiness of an optional string (JavaScript: `undefined`, `null` and the
empty string are falsy). -/
def strTruthy : Option Str → Bool
  | some s => !s.isEmpty
  | none => false

/-- `BranchPlanItem` from `src/src/app.tsx`. -/
structure PlanItem where
  branch : Branch
  deleteRemote : Bool
deriving DecidableEq

/-- `buildPlan` (`src/src/app.tsx` lines 153-158). -/
def buildPlan (branches : List Branch) : List PlanItem :=
  branches.map (fun b => { branch := b, deleteRemote := b.type = BranchType.remoteBr })

/-- One entry of `State.results` in `src/src/app.tsx`. -/
structure ExecResult where
  branch : Branch
  success : Bool
  error : Option Str := none
deriving DecidableEq

/-- The delete dispatch inside the `executePlan` loop (`src/src/app.tsx`
lines 177-188): a remote-typed branch with a (truthy) remote name goes to
`deleteRemoteBranch`, everything else goes to `deleteLocalBranch` with the
branch's leaf name and the resolved force flag.  `env` models the external
`git` process: `none` is success, `some msg` a failure whose message is
caught.  Returns the failure (if any) and the external calls issued. -/
def attemptDelete (env : GitCall → Option Str) (force : Bool) (b : Branch) :
    Option Str × List GitCall :=
  if b.type = BranchType.remoteBr && strTruthy b.remote then
    match deleteRemoteBranch (b.remote.getD []) b.name with
    | Except.error e => (some e, [])
    | Except.ok c => (env c, [c])
  else
    match deleteLocalBranch b.name force with
    | Except.error e => (some e, [])
    | Except.ok c => (env c, [c])

/-- One iteration of the `for (const item of plan)` loop of `executePlan`:
in dry-run mode the item is recorded as succeeded and nothing is invoked;
otherwise the delete is attempted and a success or failure result recorded. -/
def execItem (env : GitCall → Option Str) (dryRun force forceOverride : Bool)
    (item : PlanItem) : ExecResult × List GitCall :=
  if dryRun then ({ branch := item.branch, success := true }, [])
  else
    match attemptDelete env (forceOverride || force) item.branch with
    | (none, cs) => ({ branch := item.branch, success := true }, cs)
    | (some e, cs) => ({ branch := item.branch, success := false, error := some e }, cs)

/-- The whole result-collecting loop of `executePlan`, in plan order. -/
def execPass (env : GitCall → Option Str) (dryRun force forceOverride : Bool)
    (plan : List PlanItem) : List ExecResult × List GitCall :=
  match plan with
  | [] => ([], [])
  | item :: rest =>
    let rc := execItem env dryRun force forceOverride item
    let rest' := execPass env dryRun force forceOverride rest
    (rc.1 :: rest'.1, rc.2 ++ rest'.2)

/-- `r.error?.includes("not fully merged")` from `src/src/app.tsx` line 198. -/
def isUnmergedFailure (r : ExecResult) : Bool :=
  match r.error with
  | some e => containsSeq e (str "not fully merged")
  | none => false

/-- Outcome of one `executePlan` call: either the final state update
(status `success`, with the pass's results) or the transition to
`confirm_force` carrying the unmerged subset as the new plan. -/
inductive ExecOutcome where
  | finished (results : List ExecResult) (calls : List GitCall)
  | awaitForce (pending : List PlanItem) (results : List ExecResult) (calls : List GitCall)
deriving DecidableEq

/-- `executePlan` (`src/src/app.tsx` lines 160-228): run the pass, then — when
`force` is not set, `forceOverride` is not set and some failure's message
contains "not fully merged" — move to `confirm_force` with exactly the plan
items whose refs failed as unmerged; otherwise finish with this pass's
results. -/
def executePlan (env : GitCall → Option Str) (dryRun force : Bool)
    (plan : List PlanItem) (forceOverride : Bool) : ExecOutcome :=
  let pr := execPass env dryRun force forceOverride plan
  let failed := pr.1.filter (fun r => !r.success)
  let unmerged := failed.filter isUnmergedFailure
  if force = false ∧ forceOverride = false ∧ unmerged.length ≠ 0 then
    ExecOutcome.awaitForce
      (plan.filter (fun p => unmerged.any (fun f => f.branch.ref = p.branch.ref)))
      pr.1 pr.2
  else
    ExecOutcome.finished pr.1 pr.2

/-- End of a session's execution phase: the final reported results, or
cancellation at the force-confirmation prompt. -/
inductive SessionEnd where
  | reported (results : List ExecResult) (calls : List GitCall)
  | cancelled (calls : List GitCall)
deriving DecidableEq

/-- The execution phase including the force-retry escalation: a first
`executePlan` pass; when it stops at `confirm_force`, the operator either
confirms — `handleForceConfirm` (`src/src/app.tsx` lines 360-364) re-invokes
`executePlan` on the stored subset with `forceOverride = true`, whose final
`setState` overwrites `results` with the second pass's list — or cancels.
The second pass never reaches `confirm_force` again because its
`forceOverride` is true; the inner `awaitForce` arm is therefore dead code
(kept total with the same shape). -/
def runWithForceRetry (env : GitCall → Option Str) (dryRun force : Bool)
    (plan : List PlanItem) (confirmRetry : Bool) : SessionEnd :=
  match executePlan env dryRun force plan false with
  | ExecOutcome.finished rs cs => SessionEnd.reported rs cs
  | ExecOutcome.awaitForce pending _rs cs =>
    if confirmRetry then
      match executePlan env dryRun force pending true with
      | ExecOutcome.finished rs2 cs2 => SessionEnd.reported rs2 (cs ++ cs2)
      | ExecOutcome.awaitForce _p rs2 cs2 => SessionEnd.reported rs2 (cs ++ cs2)
    else SessionEnd.cancelled cs

/-- Results carried by a `SessionEnd` (empty on cancellation: the cancelled
error state renders only its message). -/
def reportedResults : SessionEnd → List ExecResult
  | SessionEnd.reported rs _ => rs
  | SessionEnd.cancelled _ => []

/-- The `Props` of `App` (`src/src/app.tsx` lines 12-21), i.e. the resolved
settings object. -/
structure Settings where
  pattern : Option Str := none
  remote : Bool := false
  dryRun : Bool := false
  yes : Bool := false
  force : Bool := false
  protectedBranches : Option (List Str) := none
  defaultRemote : Option Str := none
  cleanupMergedDays : Option Int := none
deriving DecidableEq

/-- `Mode` from `src/src/app.tsx`. -/
inductive Mode where
  | interactive
  | auto
deriving DecidableEq

/-- The initial mode of `App`'s state (`src/src/app.tsx` line 127):
`mode: pattern ? "auto" : "interactive"` — only the pattern flag is
consulted. -/
def selectMode (s : Settings) : Mode :=
  match s.pattern with
  | some p => if p.isEmpty then Mode.interactive else Mode.auto
  | none => Mode.interactive

/-- `filterByPattern` (`src/src/app.tsx` lines 86-96).  The compiled
`RegExp.test` — or, when compilation throws, the `String.includes` fallback —
is an external collaborator, abstracted as the predicate `test` on branch
names. -/
def filterByPattern (test : Str → Bool) (branches : List Branch)
    (pattern : Option Str) : List Branch :=
  match pattern with
  | none => branches
  | some p => if p.isEmpty then branches else branches.filter (fun b => test b.name)

/-- `filterByAge` (`src/src/app.tsx` lines 98-109).  `now` models
`Date.now()`; a falsy or non-positive `days` disables the filter; otherwise a
branch is kept when it has no commit date or its time is `≤ now - days·86400000`. -/
def filterByAge (now : Int) (branches : List Branch) (days : Option Int) :
    List Branch :=
  match days with
  | none => branches
  | some d =>
    if d ≤ 0 then branches
    else
      branches.filter (fun b =>
        match b.lastCommitDate with
        | none => true
        | some t => decide (t ≤ now - d * 86400000))

/-- `isProtected` (`src/src/app.tsx` lines 82-84); `matchPat` abstracts the
external `matchPattern` helper of `ag-toolkit`. -/
def isProtected (matchPat : Str → Str → Bool) (b : Branch)
    (protectedList : List Str) : Bool :=
  protectedList.any (fun p => matchPat b.name p)

/-- The filter pipeline of `startAutoMode` (`src/src/app.tsx` lines 239-271):
pattern filter, then age filter, then protection filter, then `buildPlan`. -/
def startAutoPlan (test : Str → Bool) (matchPat : Str → Str → Bool)
    (now : Int) (pattern : Option Str) (days : Option Int)
    (protectedList : List Str) (branches : List Branch) : List PlanItem :=
  let fp := filterByPattern test branches pattern
  let fa := filterByAge now fp days
  let fprot := fa.filter (fun b => !(isProtected matchPat b protectedList))
  buildPlan fprot

/-- The load effect (`src/src/app.tsx` lines 273-299): drop every branch whose
(leaf) name equals the current branch, then — when a (truthy) default remote
is configured — fill in the missing remote of remote-typed branches.  The
resulting list feeds both the interactive selector and `startAutoMode`. -/
def loadFilter (current : Str) (defaultRemote : Option Str)
    (infos : List Branch) : List Branch :=
  let filtered := infos.filter (fun b => !(b.name = current))
  match defaultRemote with
  | some dr =>
    if dr.isEmpty then filtered
    else
      filtered.map (fun b =>
        if b.type = BranchType.remoteBr && !(strTruthy b.remote) then
          { b with remote := some dr }
        else b)
  | none => filtered

/-- `Status` from `src/src/app.tsx` lines 23-30. -/
inductive Status where
  | loading
  | selecting
  | confirm
  | deleting
  | success
  | error
  | confirmForce
deriving DecidableEq

/-- The fields of `State` (`src/src/app.tsx` lines 39-48) that the
confirmation handling reads and writes. -/
structure AppState where
  status : Status
  message : Str
  plan : List PlanItem
  results : List ExecResult
deriving DecidableEq

/-- How `executePlan`'s final `setState` updates the app state
(`src/src/app.tsx` lines 201-225). -/
def applyOutcome (dryRun : Bool) (s : AppState) (o : ExecOutcome) :
    AppState × List GitCall :=
  match o with
  | ExecOutcome.finished rs cs =>
    let hasErrors := rs.any (fun r => !r.success)
    let msg := if dryRun then str "DRY-RUN complete"
               else if hasErrors then str "Failed to delete some branches"
               else str "Deletion complete"
    let s2 : AppState := { s with
      status := Status.success,
      message := msg,
      results := rs }
    (s2, cs)
  | ExecOutcome.awaitForce pending rs cs =>
    let msg := (Nat.repr pending.length).toList ++
               str " branches are not fully merged. Force delete?"
    let s2 : AppState := { s with
      status := Status.confirmForce,
      message := msg,
      plan := pending,
      results := rs }
    (s2, cs)

/-- Keypresses the confirmation `useInput` handler distinguishes. -/
inductive KeyKind where
  | returnKey
  | escapeKey
deriving DecidableEq

/-- The `useInput` handler of `App` (`src/src/app.tsx` lines 366-403) together
with `handleConfirm` and `handleForceConfirm`: Enter at `confirm` runs the
plan (or errors on an empty plan); Enter at `confirm_force` re-runs the stored
subset with `forceOverride = true` (and does nothing on an empty plan); Escape
at either confirmation sets status `error` with message
"Operation cancelled.".  The pair's second component lists the external
mutating calls performed by the transition. -/
def handleKey (env : GitCall → Option Str) (dryRun force : Bool)
    (s : AppState) (k : KeyKind) : AppState × List GitCall :=
  match s.status, k with
  | Status.confirm, KeyKind.returnKey =>
    if s.plan.isEmpty then
      let s2 : AppState := { s with status := Status.error, message := str "Nothing to delete." }
      (s2, [])
    else applyOutcome dryRun s (executePlan env dryRun force s.plan false)
  | Status.confirm, KeyKind.escapeKey =>
    let s2 : AppState := { s with status := Status.error, message := str "Operation cancelled." }
    (s2, [])
  | Status.confirmForce, KeyKind.returnKey =>
    if s.plan.isEmpty then (s, [])
    else applyOutcome dryRun s (executePlan env dryRun force s.plan true)
  | Status.confirmForce, KeyKind.escapeKey =>
    let s2 : AppState := { s with status := Status.error, message := str "Operation cancelled." }
    (s2, [])
  | _, _ => (s, [])

/-- Process exit dispositions of the exit effect. -/
inductive ExitDisposition where
  | noExit
  | cleanExit
  | errorExit (msg : Str)
deriving DecidableEq

/-- The exit effect (`src/src/app.tsx` lines 405-415): a `success` status
exits cleanly (after a timeout) unless in dry-run; an `error` status calls
`exit(new Error(state.message))`. -/
def exitEffect (dryRun : Bool) (s : AppState) : ExitDisposition :=
  match s.status with
  | Status.success => if dryRun then ExitDisposition.noExit else ExitDisposition.cleanExit
  | Status.error => ExitDisposition.errorExit s.message
  | _ => ExitDisposition.noExit

/-- The staleness predicate exactly as the claim words it (spec side of the
comparison, not code): kept iff the timestamp is missing or strictly older
than `now` minus the threshold. -/
def specStaleStrict (now : Int) (days : Option Int) (b : Branch) : Bool :=
  match days with
  | none => true
  | some d =>
    if d ≤ 0 then true
    else
      match b.lastCommitDate with
      | none => true
      | some t => decide (t < now - d * 86400000)

/-- An external-git model in which every call succeeds. -/
def envNone : GitCall → Option Str := fun _ => none

/-- The failure message used by concrete scenarios; it contains the
"not fully merged" marker the escalation logic scans for. -/
def msgNFM : Str := str "error: the branch is not fully merged"

/-- A merged local branch `a` (concrete scenario input). -/
def brA : Branch := { ref := str "a", name := str "a", type := BranchType.localBr, isMerged := true }

/-- An unmerged local branch `b` (concrete scenario input). -/
def brB : Branch := { ref := str "b", name := str "b", type := BranchType.localBr }

/-- An external-git model in which a plain (unforced) delete of `b` fails as
not fully merged and everything else succeeds. -/
def envC2 : GitCall → Option Str := fun c =>
  match c with
  | GitCall.branchDelete false n => if n = str "b" then some msgNFM else none
  | _ => none

/-- The plan item deleting `b` locally. -/
def itemB : PlanItem := { branch := brB, deleteRemote := false }

/-- An app state sitting at the plan-confirmation prompt for `[b]`. -/
def s0confirm : AppState :=
  { status := Status.confirm,
    message := str "Delete 1 branches? Press Enter to confirm, Esc to cancel",
    plan := [itemB], results := [] }

/-- A branch whose last commit sits exactly at `now - 1 day` (boundary input
for the age filter). -/
def bEq : Branch := { ref := str "x", name := str "x", type := BranchType.localBr, lastCommitDate := some 0 }

/-- A date-parsing model under which no date string parses. -/
def dateParseNone : Str → Option Int := fun _ => none

/-- The raw for-each-ref line of a local ref literally named `HEAD`. -/
def headLine : Str := str "refs/heads/HEAD"

/-- The record `parseBranchLine` materializes from `headLine`. -/
def headRecord : Branch := { ref := str "HEAD", name := str "HEAD", type := BranchType.localBr }

/-- A local branch with no resolvable timestamp. -/
def brNullDate : Branch := { ref := str "nodate", name := str "nodate", type := BranchType.localBr }

/-- A local branch whose commit date is before the epoch. -/
def brNegDate : Branch :=
  { ref := str "neg", name := str "neg", type := BranchType.localBr, lastCommitDate := some (-1) }

/-- The remote-tracking counterpart of a current branch `main`. -/
def brRemoteMain : Branch :=
  { ref := str "origin/main", name := str "main", type := BranchType.remoteBr, remote := some (str "origin") }

/-- A remote-typed branch whose remote field is unset. -/
def brRemoteNoName : Branch :=
  { ref := str "feat", name := str "feat", type := BranchType.remoteBr, remote := none }

instance : IsTotal Branch branchRel := by
  constructor
  intro a b
  simp only [branchRel, branchLe]
  by_cases h : a.type = b.type
  · rw [if_pos h, if_pos h.symm]
    rcases Int.le_total (branchTime b) (branchTime a) with h1 | h1
    · exact Or.inl (by simpa using h1)
    · exact Or.inr (by simpa using h1)
  · rw [if_neg h, if_neg (fun e => h e.symm)]
    cases hA : a.type <;> cases hB : b.type <;> simp_all

instance : IsTrans Branch branchRel := by
  constructor
  intro a b c hab hbc
  simp only [branchRel, branchLe] at hab hbc ⊢
  cases hA : a.type <;> cases hB : b.type <;> cases hC : c.type <;>
    simp_all <;> omega

/-! ## Theorems -/

/-- Helper: a name with a leading dash or a shell metacharacter fails the
branch-name-safety predicate. -/
theorem isValidBranchName_eq_false (s : Str)
    (h : s.head? = some '-' ∨ ∃ c ∈ s, shellMetachars.contains c = true) :
    isValidBranchName s = false := by
  cases s with
  | nil => rcases h with h | ⟨c, hc, _⟩ <;> simp_all
  | cons a t =>
    rcases h with h | ⟨c, hc, hmeta⟩
    · simp only [List.head?] at h
      have ha : a = '-' := by injection h
      simp [isValidBranchName, ha]
    · have hall : ((a :: t).all (fun ch => !(shellMetachars.contains ch))) = false := by
        rw [List.all_eq_false]
        exact ⟨c, hc, by rw [hmeta]; simp⟩
      simp only [isValidBranchName]
      rw [hall]
      simp

/-- C1: for every branch name with a leading dash or a shell metacharacter,
`deleteLocalBranch` (and `deleteRemoteBranch`, on the name component) rejects
with the invalid-branch-name error, and the execution loop's delete dispatch
issues no external mutating git call for such a branch. -/
theorem c1_invalid_name_rejected (b : Branch) (r : Str) (f : Bool)
    (h : b.name.head? = some '-' ∨ ∃ c ∈ b.name, shellMetachars.contains c = true) :
    deleteLocalBranch b.name f = Except.error (str "Invalid branch name: " ++ b.name) ∧
    deleteRemoteBranch r b.name = Except.error (str "Invalid branch name: " ++ b.name) ∧
    ∀ env force, (attemptDelete env force b).2 = [] := by
  have hv := isValidBranchName_eq_false b.name h
  refine ⟨by simp [deleteLocalBranch, hv], by simp [deleteRemoteBranch, hv], ?_⟩
  intro env force
  by_cases hc : (b.type = BranchType.remoteBr && strTruthy b.remote) = true
  · simp [attemptDelete, hc, deleteRemoteBranch, hv]
  · simp only [Bool.not_eq_true] at hc
    simp [attemptDelete, hc, deleteLocalBranch, hv]

/-- Witness for C1 at the concrete name `-x`. -/
theorem c1_witness :
    deleteLocalBranch (str "-x") false =
      Except.error (str "Invalid branch name: " ++ str "-x") ∧
    deleteRemoteBranch (str "origin") (str "-x") =
      Except.error (str "Invalid branch name: " ++ str "-x") ∧
    ∀ env force,
      (attemptDelete env force { ref := str "-x", name := str "-x", type := BranchType.localBr }).2 = [] :=
  c1_invalid_name_rejected
    { ref := str "-x", name := str "-x", type := BranchType.localBr }
    (str "origin") false (Or.inl (by decide))

/-- Helper: a dry-run pass records every item as succeeded and performs no
external call. -/
theorem execPass_dryRun (env : GitCall → Option Str) (force fo : Bool)
    (plan : List PlanItem) :
    execPass env true force fo plan =
      (plan.map (fun i => ({ branch := i.branch, success := true } : ExecResult)), []) := by
  induction plan with
  | nil => rfl
  | cons a t ih => simp [execPass, execItem, ih]

/-- C4: executing any non-empty plan in dry-run mode records every plan item
as a succeeded result and invokes no mutating git operation. -/
theorem c4_dry_run_no_mutation (env : GitCall → Option Str) (force fo : Bool)
    (plan : List PlanItem) (hne : plan ≠ []) :
    executePlan env true force plan fo =
      ExecOutcome.finished
        (plan.map (fun i => ({ branch := i.branch, success := true } : ExecResult))) [] := by
  have hp := execPass_dryRun env force fo plan
  have hfilter :
      ((plan.map (fun i => ({ branch := i.branch, success := true } : ExecResult))).filter
        (fun r => !r.success)) = [] := by
    rw [List.filter_eq_nil_iff]
    intro a ha
    rcases List.mem_map.mp ha with ⟨i, _, rfl⟩
    simp
  simp [executePlan, hp, hfilter]

/-- Witness for C4 on the one-item plan `[b]`. -/
theorem c4_witness :
    executePlan envNone true false [itemB] false =
      ExecOutcome.finished [{ branch := brB, success := true }] [] := by
  have := c4_dry_run_no_mutation envNone false false [itemB] (by simp)
  simpa [itemB] using this

/-- C5: the initial mode of the session consults only the pattern flag —
`selectMode` returns `auto` iff a non-empty pattern is present, and in
particular a settings object with `yes = true` and `cleanupMergedDays = 30`
but no pattern still selects interactive mode (the claim and the README say
such settings select automatic mode). -/
theorem c5_mode_only_pattern :
    selectMode { yes := true, cleanupMergedDays := some 30 } = Mode.interactive ∧
    ∀ s : Settings, selectMode s = Mode.auto ↔ ∃ p, s.pattern = some p ∧ p ≠ [] := by
  refine ⟨rfl, ?_⟩
  intro s
  cases hp : s.pattern with
  | none => simp [selectMode, hp]
  | some p => cases p <;> simp [selectMode, hp, List.isEmpty]

/-- C10: the delete dispatch of the execution loop — a remote-typed branch
without a (truthy) remote falls back to the local delete on the branch's leaf
name (issuing at most a `git branch` delete call); a `push --delete` call is
issued only when the branch is remote-typed with a truthy remote, and then
for exactly that remote and the branch's leaf name; and a remote-typed branch
with a truthy remote issues at most a `push --delete` call. -/
theorem c10_remote_dispatch (env : GitCall → Option Str) (force : Bool) (b : Branch) :
    (b.type = BranchType.remoteBr → strTruthy b.remote = false →
      (attemptDelete env force b).2 = [] ∨
      (attemptDelete env force b).2 = [GitCall.branchDelete force b.name]) ∧
    (∀ r n, GitCall.pushDelete r n ∈ (attemptDelete env force b).2 →
      b.type = BranchType.remoteBr ∧ b.remote = some r ∧ strTruthy b.remote = true ∧
        n = b.name) ∧
    (b.type = BranchType.remoteBr → strTruthy b.remote = true →
      (attemptDelete env force b).2 = [] ∨
      (attemptDelete env force b).2 = [GitCall.pushDelete (b.remote.getD []) b.name]) := by
  refine ⟨?_, ?_, ?_⟩
  · intro ht hr
    have hc : (b.type = BranchType.remoteBr && strTruthy b.remote) = false := by
      simp [ht, hr]
    by_cases hv : isValidBranchName b.name = true
    · right; simp [attemptDelete, hc, deleteLocalBranch, hv]
    · left
      simp only [Bool.not_eq_true] at hv
      simp [attemptDelete, hc, deleteLocalBranch, hv]
  · intro r n hmem
    by_cases hc : (b.type = BranchType.remoteBr && strTruthy b.remote) = true
    · have hc2 : b.type = BranchType.remoteBr ∧ strTruthy b.remote = true := by
        simpa using hc
      have ht := hc2.1
      have hr := hc2.2
      obtain ⟨s, hs⟩ : ∃ s, b.remote = some s := by
        cases hb : b.remote with
        | none => rw [hb] at hr; simp [strTruthy] at hr
        | some s => exact ⟨s, rfl⟩
      by_cases hv : isValidBranchName b.name = true
      · have : (attemptDelete env force b).2 = [GitCall.pushDelete (b.remote.getD []) b.name] := by
          simp [attemptDelete, hc, deleteRemoteBranch, hv]
        rw [this] at hmem
        simp only [List.mem_singleton] at hmem
        injection hmem with h1 h2
        refine ⟨ht, ?_, hr, h2⟩
        rw [hs] at h1 ⊢
        simp only [Option.getD] at h1
        rw [← h1]
      · simp only [Bool.not_eq_true] at hv
        have : (attemptDelete env force b).2 = [] := by
          simp [attemptDelete, hc, deleteRemoteBranch, hv]
        rw [this] at hmem
        simp at hmem
    · simp only [Bool.not_eq_true] at hc
      by_cases hv : isValidBranchName b.name = true
      · have : (attemptDelete env force b).2 = [GitCall.branchDelete force b.name] := by
          simp [attemptDelete, hc, deleteLocalBranch, hv]
        rw [this] at hmem
        simp at hmem
      · simp only [Bool.not_eq_true] at hv
        have : (attemptDelete env force b).2 = [] := by
          simp [attemptDelete, hc, deleteLocalBranch, hv]
        rw [this] at hmem
        simp at hmem
  · intro ht hr
    have hc : (b.type = BranchType.remoteBr && strTruthy b.remote) = true := by
      simp [ht, hr]
    by_cases hv : isValidBranchName b.name = true
    · right; simp [attemptDelete, hc, deleteRemoteBranch, hv]
    · left
      simp only [Bool.not_eq_true] at hv
      simp [attemptDelete, hc, deleteRemoteBranch, hv]

/-- Witness for C10 on a remote-typed branch with no remote set. -/
theorem c10_witness :
    (attemptDelete envNone false brRemoteNoName).2 = [] ∨
    (attemptDelete envNone false brRemoteNoName).2 =
      [GitCall.branchDelete false brRemoteNoName.name] :=
  (c10_remote_dispatch envNone false brRemoteNoName).1 rfl rfl

/-- C2 counterexample: plan `[a, b]` where `a` deletes fine and `b` first
fails as not fully merged; after the confirmed force-retry the final reported
result list names only `b` — branch `a` of the original plan does not appear
in it, so the final report does not contain every branch of the plan. -/
theorem c2_counterexample :
    (reportedResults (runWithForceRetry envC2 false false (buildPlan [brA, brB]) true)).map
        (fun r => r.branch.ref) = [str "b"] ∧
    (buildPlan [brA, brB]).map (fun i => i.branch.ref) = [str "a", str "b"] := by
  decide

/-- C2 (amended): when the first pass stops for force confirmation, the
pending subset is exactly the plan items whose refs failed with a
"not fully merged" reason, and a confirmed retry re-executes exactly that
subset with the force override; the final report consists of the second
pass's results alone (first-pass results are replaced, not merged). -/
theorem c2_force_retry_replaces_results (env : GitCall → Option Str)
    (dryRun force : Bool) (plan pending : List PlanItem)
    (rs : List ExecResult) (cs : List GitCall)
    (h : executePlan env dryRun force plan false = ExecOutcome.awaitForce pending rs cs) :
    pending = plan.filter (fun p =>
      ((rs.filter (fun r => !r.success)).filter isUnmergedFailure).any
        (fun f => f.branch.ref = p.branch.ref)) ∧
    runWithForceRetry env dryRun force plan true =
      SessionEnd.reported (execPass env dryRun force true pending).1
        (cs ++ (execPass env dryRun force true pending).2) := by
  have h0 := h
  simp only [executePlan] at h
  split at h
  · injection h with h1 h2 h3
    constructor
    · rw [← h2, ← h1]
    · have hfin : executePlan env dryRun force pending true =
          ExecOutcome.finished (execPass env dryRun force true pending).1
            (execPass env dryRun force true pending).2 := by
        simp only [executePlan]
        rw [if_neg]
        rintro ⟨-, hfo, -⟩
        exact absurd hfo (by simp)
      simp only [runWithForceRetry, h0, hfin, if_true]
  · exact absurd h (by simp)

/-- Witness for C2 on the concrete two-branch scenario. -/
theorem c2_witness :
    [itemB] = (buildPlan [brA, brB]).filter (fun p =>
      ((([{ branch := brA, success := true },
           { branch := brB, success := false, error := some msgNFM }].filter
          (fun r => !r.success)).filter isUnmergedFailure).any
        (fun f => f.branch.ref = p.branch.ref))) ∧
    runWithForceRetry envC2 false false (buildPlan [brA, brB]) true =
      SessionEnd.reported (execPass envC2 false false true [itemB]).1
        ([GitCall.branchDelete false (str "a"), GitCall.branchDelete false (str "b")] ++
          (execPass envC2 false false true [itemB]).2) :=
  c2_force_retry_replaces_results envC2 false false (buildPlan [brA, brB]) [itemB]
    [{ branch := brA, success := true },
     { branch := brB, success := false, error := some msgNFM }]
    [GitCall.branchDelete false (str "a"), GitCall.branchDelete false (str "b")]
    (by decide)

/-- C3 counterexample: pressing Escape at the plan-confirmation prompt leaves
the session in the `error` status and the exit effect exits with an `Error`
carrying "Operation cancelled." — the same error exit used for failures, so
cancellation is not an end state distinct from an error exit. -/
theorem c3_counterexample :
    (handleKey envNone false false s0confirm KeyKind.escapeKey).1.status = Status.error ∧
    exitEffect false (handleKey envNone false false s0confirm KeyKind.escapeKey).1 =
      ExitDisposition.errorExit (str "Operation cancelled.") :=
  ⟨rfl, rfl⟩

/-- C3 (amended): cancellation at either confirmation point performs no
mutating git call and moves the session to the `error` status with the
distinct message "Operation cancelled."; the session then terminates through
the error exit path carrying that message. -/
theorem c3_cancellation_no_mutation (env : GitCall → Option Str)
    (dryRun force : Bool) (s : AppState)
    (h : s.status = Status.confirm ∨ s.status = Status.confirmForce) :
    handleKey env dryRun force s KeyKind.escapeKey =
      ({ s with status := Status.error, message := str "Operation cancelled." }, []) ∧
    exitEffect dryRun (handleKey env dryRun force s KeyKind.escapeKey).1 =
      ExitDisposition.errorExit (str "Operation cancelled.") := by
  obtain ⟨st, msg, pl, rsl⟩ := s
  rcases h with h | h <;> simp only at h <;> subst h <;> exact ⟨rfl, rfl⟩

/-- Witness for C3 at the concrete confirmation state. -/
theorem c3_witness :
    handleKey envNone false false s0confirm KeyKind.escapeKey =
      ({ s0confirm with status := Status.error, message := str "Operation cancelled." }, []) ∧
    exitEffect false (handleKey envNone false false s0confirm KeyKind.escapeKey).1 =
      ExitDisposition.errorExit (str "Operation cancelled.") :=
  c3_cancellation_no_mutation envNone false false s0confirm (Or.inl rfl)

/-- C6 counterexample: a branch whose timestamp is exactly `now - 1 day` is
kept by the age filter, although the claim's strict "older than" condition is
false for it. -/
theorem c6_counterexample :
    bEq ∈ filterByAge 86400000 [bEq] (some 1) ∧
    specStaleStrict 86400000 (some 1) bEq = false := by
  decide

/-- C6 (amended): with `cleanupMergedDays` absent or non-positive the age
filter keeps every branch; with a positive threshold a branch is kept iff its
commit date is missing or its timestamp is at most `now - days·86400000`
(at least `days` old — the boundary timestamp is kept). -/
theorem c6_age_filter (now : Int) (days : Option Int) (bs : List Branch)
    (b : Branch) :
    ((days = none ∨ ∃ d, days = some d ∧ d ≤ 0) → filterByAge now bs days = bs) ∧
    (∀ d, days = some d → 0 < d →
      (b ∈ filterByAge now bs days ↔
        b ∈ bs ∧ (b.lastCommitDate = none ∨
          ∃ t, b.lastCommitDate = some t ∧ t ≤ now - d * 86400000))) := by
  constructor
  · intro h
    rcases h with h | ⟨d, hd, hle⟩
    · rw [h]; rfl
    · rw [hd]; simp [filterByAge, hle]
  · intro d hd hpos
    subst hd
    simp only [filterByAge]
    rw [if_neg (by omega)]
    rw [List.mem_filter]
    constructor
    · rintro ⟨hb, hp⟩
      refine ⟨hb, ?_⟩
      cases hbd : b.lastCommitDate with
      | none => exact Or.inl rfl
      | some t =>
        right
        refine ⟨t, rfl, ?_⟩
        rw [hbd] at hp
        simpa using hp
    · rintro ⟨hb, hor⟩
      refine ⟨hb, ?_⟩
      rcases hor with hn | ⟨t, ht, hle⟩
      · simp [hn]
      · simp [ht, hle]

/-- Witness for C6 at the boundary branch. -/
theorem c6_witness : bEq ∈ filterByAge 86400000 [bEq] (some 1) :=
  ((c6_age_filter 86400000 (some 1) [bEq] bEq).2 1 rfl (by norm_num)).mpr
    ⟨by simp, Or.inr ⟨0, rfl, by norm_num⟩⟩

/-- C7 counterexample: a raw line for a local ref literally named `HEAD` is
materialized as a `BranchRecord` whose name ends in (indeed equals) `HEAD`,
because the guard only discards stripped refs ending in "/HEAD". -/
theorem c7_counterexample :
    parseBranchLine dateParseNone headLine BranchType.localBr = some headRecord ∧
    (str "HEAD").isSuffixOf headRecord.name = true := by
  decide

/-- C7 (amended): every record materialized by `parseBranchLine` has a ref
that does not end in "/HEAD"; a remote record's leaf name is never exactly
`HEAD`; and a local record's name equals its stripped ref — so the only
materialized records whose trailing path component is the reserved pointer
name are local refs literally named `HEAD`. -/
theorem c7_head_discards (pd : Str → Option Int) (line : Str)
    (btype : BranchType) (b : Branch)
    (h : parseBranchLine pd line btype = some b) :
    (str "/HEAD").isSuffixOf b.ref = false ∧
    (btype = BranchType.remoteBr → b.name ≠ str "HEAD") ∧
    (btype = BranchType.localBr → b.name = b.ref) := by
  simp only [parseBranchLine] at h
  split at h
  · exact absurd h (by simp)
  case isFalse hcond =>
    simp only [Bool.or_eq_true, not_or, Bool.not_eq_true] at hcond
    obtain ⟨hne, hsuf⟩ := hcond
    cases btype with
    | localBr =>
      simp only [] at h
      injection h with hb
      subst hb
      exact ⟨hsuf, by intro hx; exact absurd hx (by simp), fun _ => rfl⟩
    | remoteBr =>
      simp only [] at h
      split at h
      · exact absurd h (by simp)
      case h_2 remote nameParts heq =>
        split at h
        · exact absurd h (by simp)
        case isFalse hcond2 =>
          simp only [Bool.or_eq_true, not_or, Bool.not_eq_true] at hcond2
          injection h with hb
          subst hb
          refine ⟨hsuf, fun _ => ?_, by intro hx; exact absurd hx (by simp)⟩
          intro hname
          simp only [] at hname
          rw [hname] at hcond2
          simp at hcond2

/-- C8 counterexample: among two local branches, one with no resolvable
timestamp and one with a pre-epoch timestamp, the sort places the
timestamp-less branch (treated as time `0`) before the dated one — so a
branch with no resolvable timestamp does not sort as oldest. -/
theorem c8_counterexample :
    sortBranches [brNullDate, brNegDate] = [brNullDate, brNegDate] ∧
    brNullDate.lastCommitDate = none ∧
    brNegDate.lastCommitDate = some (-1) ∧
    brNullDate.type = brNegDate.type := by
  decide

/-- C8 (amended): the branch enumeration's final sort returns a permutation
of its input in which locals precede remotes and, within one kind,
last-commit times are non-increasing, a missing timestamp counting as the
epoch (time `0`). -/
theorem c8_sort_order (l : List Branch) :
    (sortBranches l).Pairwise (fun a b =>
      (a.type = BranchType.localBr ∧ b.type = BranchType.remoteBr) ∨
      (a.type = b.type ∧ branchTime b ≤ branchTime a)) ∧
    (sortBranches l).Perm l := by
  constructor
  · have hs : (sortBranches l).Pairwise branchRel :=
      List.sorted_insertionSort branchRel l
    refine List.Pairwise.imp ?_ hs
    intro a b hab
    simp only [branchRel, branchLe] at hab
    by_cases h : a.type = b.type
    · rw [if_pos h] at hab
      exact Or.inr ⟨h, by simpa using hab⟩
    · rw [if_neg h] at hab
      have ha : a.type = BranchType.localBr := by simpa using hab
      left
      refine ⟨ha, ?_⟩
      cases hb : b.type with
      | localBr => exact absurd (ha.trans hb.symm) h
      | remoteBr => rfl
  · exact List.perm_insertionSort branchRel l

/-- Helper for C9: the load-time filter removes every branch whose leaf name
equals the current branch, and the default-remote fill-in never changes a
name. -/
theorem mem_loadFilter_name_ne (current : Str) (dr : Option Str)
    (infos : List Branch) (b : Branch)
    (hb : b ∈ loadFilter current dr infos) : b.name ≠ current := by
  simp only [loadFilter] at hb
  have base : ∀ x : Branch, x ∈ infos.filter (fun c => !(c.name = current)) →
      x.name ≠ current := by
    intro x hx
    have := (List.mem_filter.mp hx).2
    simpa using this
  cases dr with
  | none => exact base b hb
  | some d =>
    dsimp only at hb
    by_cases hd : List.isEmpty d = true
    · rw [if_pos hd] at hb
      exact base b hb
    · rw [if_neg hd] at hb
      obtain ⟨a, ha, rfl⟩ := List.mem_map.mp hb
      have hname : (if a.type = BranchType.remoteBr && !(strTruthy a.remote) then
          { a with remote := some d } else a).name = a.name := by
        split <;> rfl
      rw [hname]
      exact base a ha

/-- Helper for C9: the age filter only removes branches. -/
theorem mem_of_mem_filterByAge (now : Int) (bs : List Branch)
    (days : Option Int) (b : Branch) (hb : b ∈ filterByAge now bs days) :
    b ∈ bs := by
  simp only [filterByAge] at hb
  cases days with
  | none => exact hb
  | some d =>
    dsimp only at hb
    by_cases hd : d ≤ 0
    · rw [if_pos hd] at hb
      exact hb
    · rw [if_neg hd] at hb
      exact (List.mem_filter.mp hb).1

/-- Helper for C9: the pattern filter only removes branches. -/
theorem mem_of_mem_filterByPattern (test : Str → Bool) (bs : List Branch)
    (pattern : Option Str) (b : Branch)
    (hb : b ∈ filterByPattern test bs pattern) : b ∈ bs := by
  simp only [filterByPattern] at hb
  cases pattern with
  | none => exact hb
  | some p =>
    dsimp only at hb
    by_cases hp : List.isEmpty p = true
    · rw [if_pos hp] at hb
      exact hb
    · rw [if_neg hp] at hb
      exact (List.mem_filter.mp hb).1

/-- Helper for C9: every plan item's branch comes from the filtered list. -/
theorem mem_of_mem_buildPlan (bs : List Branch) (item : PlanItem)
    (h : item ∈ buildPlan bs) : item.branch ∈ bs := by
  simp only [buildPlan] at h
  obtain ⟨a, ha, rfl⟩ := List.mem_map.mp h
  exact ha

/-- C9: after the load effect's filter, no branch — local or remote — whose
leaf name equals the current branch remains, so neither the interactive
selection list (the filtered list itself) nor any automatic-mode plan item
can be named like the current branch; no force flag enters this pipeline. -/
theorem c9_current_branch_excluded (current : Str) (dr : Option Str)
    (infos : List Branch) (test : Str → Bool) (matchPat : Str → Str → Bool)
    (now : Int) (pattern : Option Str) (days : Option Int)
    (protectedList : List Str) :
    (∀ b ∈ loadFilter current dr infos, b.name ≠ current) ∧
    (∀ item ∈ startAutoPlan test matchPat now pattern days protectedList
        (loadFilter current dr infos), item.branch.name ≠ current) := by
  constructor
  · intro b hb
    exact mem_loadFilter_name_ne current dr infos b hb
  · intro item hitem
    simp only [startAutoPlan] at hitem
    have h2 := mem_of_mem_buildPlan _ _ hitem
    have h3 := (List.mem_filter.mp h2).1
    have h4 := mem_of_mem_filterByAge _ _ _ _ h3
    have h5 := mem_of_mem_filterByPattern _ _ _ _ h4
    exact mem_loadFilter_name_ne current dr infos _ h5

/-- Witness for C9: the remote-tracking counterpart `origin/main` of the
current branch `main` is excluded from the loaded list. -/
theorem c9_witness :
    brRemoteMain ∉ loadFilter (str "main") (some (str "origin")) [brRemoteMain] :=
  fun h =>
    (c9_current_branch_excluded (str "main") (some (str "origin")) [brRemoteMain]
      (fun _ => true) (fun _ _ => false) 0 none none []).1 brRemoteMain h rfl

/-- Witness for C7 at a concretely parsed line. -/
theorem c7_witness :
    (str "/HEAD").isSuffixOf headRecord.ref = false ∧
    (BranchType.localBr = BranchType.remoteBr → headRecord.name ≠ str "HEAD") ∧
    (BranchType.localBr = BranchType.localBr → headRecord.name = headRecord.ref) :=
  c7_head_discards dateParseNone headLine BranchType.localBr headRecord (by decide)
